import Mathlib

/-!
# Verification of the markdown-muncher info-string parser and data-attribute mapper

Shallow embedding of the hand-written core of the repository:

* `src/handler-code-meta.mjs` — `parse` (key-only form allowed), `preHandle`,
  `applyPredicate`;
* `src/mdast-code-meta-to-dataset.mjs` — `parse` (`=` required), the
  `metaToDataset` visitor body, `applyFilter`;
* `src/hast-data-to-properties.mjs` — `asDataAttr`, `asDataProp`,
  `shouldFilterData`, the `dataToProperties` sweep.

Strings are modelled as `List Char` (JS strings are UTF-16 code-unit
sequences; every character class involved here is ASCII, so scalar values are
an adequate model).  JS objects used as string-keyed maps are modelled as
association lists with JS insertion-order semantics (`set` updates in place,
inserts append; `delete` removes the binding); none of the keys manipulated
by this code are numeric-like, so insertion order is the object's key order.

The parsers in the source are a single sticky regular expression executed in
a loop.  The embedding implements the exact backtracking semantics of that
regular expression; the correspondence arguments (where maximal munch is
forced because the pattern's continuation is nullable or the forbidden
character cannot start the next token) are given in doc comments on the
individual definitions.
-/

namespace MarkdownMuncher

/-- Strings as lists of characters. -/
abbrev Str := List Char

/-! ## Character classes of the regular expressions involved -/

/-- JS `\s`: ECMAScript WhiteSpace ∪ LineTerminator. -/
def isWS (c : Char) : Bool :=
  c == ' ' || c == '\t' || c == '\n' || c == '\r' ||
  c == '\x0b' || c == '\x0c' || c == '\u00a0' || c == '\u1680' ||
  ('\u2000' ≤ c && c ≤ '\u200a') || c == '\u2028' || c == '\u2029' ||
  c == '\u202f' || c == '\u205f' || c == '\u3000' || c == '\ufeff'

/-- JS `.` (no `s` flag): any character except a line terminator. -/
def isDot (c : Char) : Bool :=
  c != '\n' && c != '\r' && c != '\u2028' && c != '\u2029'

/-- `[a-z]`. -/
def isLowerAZ (c : Char) : Bool := 'a' ≤ c && c ≤ 'z'

/-- `[A-Z]`. -/
def isUpperAZ (c : Char) : Bool := 'A' ≤ c && c ≤ 'Z'

/-- `[0-9]`. -/
def isDigit09 (c : Char) : Bool := '0' ≤ c && c ≤ '9'

/-- `[a-z_]` — first character of a parsed key. -/
def isKeyStart (c : Char) : Bool := isLowerAZ c || c == '_'

/-- `[a-z0-9_.-]` — continuation characters of a parsed key, and the
character set admitted by `asDataAttr`. -/
def isKeyChar (c : Char) : Bool :=
  isLowerAZ c || isDigit09 c || c == '_' || c == '.' || c == '-'

/-- JS `\w`: `[A-Za-z0-9_]`. -/
def isWordChar (c : Char) : Bool :=
  isLowerAZ c || isUpperAZ c || isDigit09 c || c == '_'

/-- The `(?!xml)` lookahead / `/^xml/` test: does the string start with
the literal characters `xml`? -/
def startsWithXml : Str → Bool
  | c1 :: c2 :: c3 :: _ => c1 = 'x' && c2 = 'm' && c3 = 'l'
  | _ => false

/-! ## The info-string parser

Both `parse` variants run one sticky regular expression in a loop:

handler-code-meta.mjs (key-only form allowed):
`\s*(?<key>(?!xml)[a-z_][a-z0-9_.-]*)(?:=(?:(?<q>["'])(?<qval>(?:(?<=\\)\k<q>|(?!\k<q>).)*)\k<q>|(?<uval>\S*)))?\s*`

mdast-code-meta-to-dataset.mjs (`=` required):
`\s*(?<key>(?!xml)[a-z_][a-z0-9_.-]*)=(?:(?<q>["'])(?<qval>(?:(?<=\\)\k<q>|(?!\k<q>).)*)\k<q>|(?<uval>\S*))\s*`
-/

/-- One parsed attribute: the `key` and `val` capture groups of a single
regex match (`val = qval ?? uval ?? ''` in the handler variant,
`val = qval ?? uval` in the dataset variant, where the `=`-branch is
mandatory so one of the two is always defined). -/
structure Attr where
  key : Str
  val : Str
deriving DecidableEq, Repr

/-- The backtracking semantics of
`(?<qval>(?:(?<=\\)\k<q>|(?!\k<q>).)*)\k<q>` with opening quote `q`:
greedily consume characters that are either an escaped `q`
(atom `(?<=\\)\k<q>`: the previous input character is a backslash) or any
non-line-terminator other than `q` (atom `(?!\k<q>).`), then match the
closing `\k<q>`; on failure, backtrack the greedy star one character at a
time.  The closer can only succeed where the character is `q`, i.e. either
at the unescaped `q` that stopped the star, or at an escaped `q` inside the
consumed run.  `prev` is the input character immediately before `cs` (the
lookbehind can see the opening quote itself).  Returns
`some (qval, remainder-after-the-closing-quote)` or `none`. -/
def quotedMatch (q : Char) (prev : Char) : Str → Option (Str × Str)
  | [] => none
  | c :: cs =>
    if c = q then
      if prev = '\\' then
        -- escaped quote: the star consumes it via the lookbehind atom;
        -- if the continuation fails, the closing `\k<q>` matches it instead
        match quotedMatch q c cs with
        | some (v, r) => some (c :: v, r)
        | none => some ([], cs)
      else
        -- unescaped quote: neither atom can consume it, the closer matches
        some ([], cs)
    else
      if isDot c then
        match quotedMatch q c cs with
        | some (v, r) => some (c :: v, r)
        | none => none
      else
        -- line terminator: no atom matches it and the closer needs `q`
        none

/-- A single match attempt of the sticky regular expression at the current
position.  `keyOnly` selects the handler-code-meta.mjs variant, where the
`(?:=...)?` group is optional.  Returns the attribute of the match and the
remaining input after the match (trailing `\s*` included), or `none` when
the regex does not match at this position.

Determinism notes relating this to the regex backtracking:
* the leading `\s*` is maximal-munch: the key's first character class
  `[a-z_]` contains no whitespace, so giving back whitespace can never help;
* the key `[a-z_][a-z0-9_.-]*` is maximal-munch: in the `keyOnly` variant
  the rest of the pattern is nullable, and in the `=`-required variant a
  shortened key would have to be followed by `=`, which is not a key
  character, so no shorter key can succeed when the maximal one fails;
* after `=`, the quoted alternative is tried first; on its failure the
  `(?<uval>\S*)` alternative always succeeds (it is nullable), matching the
  maximal run of non-whitespace (its continuation `\s*` is nullable).

`matchValue` is the part of one match attempt after the key capture: the
`(?:=...)?` group (or the mandatory `=...` group) followed by the trailing
`\s*`; `matchAttr` is the whole attempt. -/
def matchValue (keyOnly : Bool) (key : Str) (after : Str) : Option (Attr × Str) :=
  match after with
  | [] => if keyOnly then some (⟨key, []⟩, []) else none
  | c :: vs =>
    if c = '=' then
      match vs with
      | q :: vrest =>
        if q = '"' ∨ q = '\'' then
          match quotedMatch q q vrest with
          | some (v, r) => some (⟨key, v⟩, r.dropWhile isWS)
          | none =>
            -- whole quoted alternative failed: fall back to `\S*`,
            -- which starts at the opening quote
            some (⟨key, vs.takeWhile (fun c => !isWS c)⟩,
                  (vs.dropWhile (fun c => !isWS c)).dropWhile isWS)
        else
          some (⟨key, vs.takeWhile (fun c => !isWS c)⟩,
                (vs.dropWhile (fun c => !isWS c)).dropWhile isWS)
      | [] => some (⟨key, []⟩, [])
    else
      if keyOnly then some (⟨key, []⟩, (c :: vs).dropWhile isWS) else none

def matchAttr (keyOnly : Bool) (cs : Str) : Option (Attr × Str) :=
  let cs1 := cs.dropWhile isWS
  if startsWithXml cs1 then none
  else
    match cs1 with
    | [] => none
    | c :: rest =>
      if isKeyStart c then
        matchValue keyOnly (c :: rest.takeWhile isKeyChar) (rest.dropWhile isKeyChar)
      else none

/-- Result of `parse`: the attribute list and the unconsumed remainder
(`rest: lidx < meta.length ? meta.slice(lidx) : undefined`). -/
structure ParseResult where
  attrs : List Attr
  rest : Option Str
deriving DecidableEq, Repr

/-- The `while (match = re.exec(meta))` loop, with `fuel` bounding the
number of iterations so that the recursion is structural (every successful
match consumes at least the one-character key, so `meta.length + 1` fuel is
always enough; see `matchAttr_length_lt` and `parseLoopFuel_eq_of_fuel`).
When the match fails at the current position, `rest` is the remaining input
if non-empty (`lidx < meta.length`), absent otherwise. -/
def parseLoopFuel (keyOnly : Bool) : Nat → Str → ParseResult
  | 0, cs => ⟨[], if cs.isEmpty then none else some cs⟩
  | fuel + 1, cs =>
    match matchAttr keyOnly cs with
    | none => ⟨[], if cs.isEmpty then none else some cs⟩
    | some (a, r) =>
      let res := parseLoopFuel keyOnly fuel r
      ⟨a :: res.attrs, res.rest⟩

/-- `parse` of `src/handler-code-meta.mjs` (key-only attributes allowed). -/
def parseHandler (meta : Str) : ParseResult :=
  parseLoopFuel true (meta.length + 1) meta

/-- `parse` of `src/mdast-code-meta-to-dataset.mjs` (`=` required). -/
def parseDataset (meta : Str) : ParseResult :=
  parseLoopFuel false (meta.length + 1) meta

/-! ## The safe name mapper (`src/hast-data-to-properties.mjs`) -/

/-- `asDataAttr`:
```
if (/^[a-z_]/.test(attr) && !/[^a-z0-9_.-]/.test(attr) && !/^xml/.test(attr)) {
    return 'data-' + attr
}
```
`/^[a-z_]/` requires a first character in `[a-z_]` (so the string is
non-empty), `!/[^a-z0-9_.-]/` requires every character to be in
`[a-z0-9_.-]`, and `!/^xml/` excludes the `xml` prefix. -/
def asDataAttr (attr : Str) : Option Str :=
  match attr with
  | [] => none
  | c :: _ =>
    if isKeyStart c && attr.all isKeyChar && !startsWithXml attr then
      some ('d' :: 'a' :: 't' :: 'a' :: '-' :: attr)
    else
      none

/-- `asDataProp`:
```
if (/^[A-Za-z_]/.test(prop) && !/[^\w]/.test(prop)) {
    return 'data' + prop.charAt(0).toUpperCase() + prop.slice(1)
}
```
`Char.toUpper` agrees with JS `toUpperCase` on the admitted character set
`[A-Za-z0-9_]` (ASCII letters are upper-cased, everything else is fixed). -/
def asDataProp (prop : Str) : Option Str :=
  match prop with
  | [] => none
  | c :: rest =>
    if (isLowerAZ c || isUpperAZ c || c == '_') && prop.all isWordChar then
      some ('d' :: 'a' :: 't' :: 'a' :: c.toUpper :: rest)
    else
      none

/-! ## JS objects as string-keyed maps

JS object semantics for non-numeric string keys: assignment to an existing
key updates its value in place, assignment to a new key appends it;
`delete` removes the binding; `Object.entries` lists bindings in that
order. -/

/-- A JS object used as a string-keyed map of string values. -/
abbrev Obj := List (Str × Str)

/-- `o[k] = v`. -/
def objSet (o : Obj) (k v : Str) : Obj :=
  match o with
  | [] => [(k, v)]
  | (k', v') :: rest => if k' = k then (k, v) :: rest else (k', v') :: objSet rest k v

/-- `delete o[k]`. -/
def objDelete (o : Obj) (k : Str) : Obj :=
  o.filter (fun kv => kv.1 ≠ k)

/-- `o[k]` (as an option). -/
def objGet (o : Obj) (k : Str) : Option Str :=
  (o.find? (fun kv => kv.1 = k)).map (·.2)

/-! ## The include / data-filter predicates -/

/-- The predicate values accepted by `applyPredicate` / `applyFilter` /
`shouldFilterData`: a boolean, a string (compared to the key), a regular
expression (modelled by its test on the key), a function of key and value,
or an array of sub-predicates.  (The JS `instanceof`-wrapped object forms
`Boolean`/`String` behave like the primitives and are not distinguished.) -/
inductive Pred where
  | bool (b : Bool)
  | str (s : Str)
  | regex (test : Str → Bool)
  | fn (f : Str → Str → Bool)
  | arr (ps : List Pred)

/-- `applyPredicate` of `src/handler-code-meta.mjs`: dispatch on the
predicate's type; an array is an OR over its elements
(`pred.some(p => applyPredicate(p, key, val))`).  `fuel` bounds the
recursion depth so that the definition is structural in a kernel-reducible
way; any fuel larger than the nesting depth of the predicate gives the JS
behaviour (a JS array can even contain itself, in which case the JS
recursion does not terminate either). -/
def applyPredicate : Nat → Pred → Str → Str → Bool
  | 0, _, _, _ => false
  | _ + 1, .bool b, _, _ => b
  | _ + 1, .str s, key, _ => s = key
  | _ + 1, .regex t, key, _ => t key
  | _ + 1, .fn f, key, val => f key val
  | fuel + 1, .arr ps, key, val => ps.any (fun p => applyPredicate fuel p key val)

/-- `applyFilter` of `src/mdast-code-meta-to-dataset.mjs`.  Identical to
`applyPredicate` except for the array branch, which reads
`flt.some(flt => filter(flt, key, val))`: the module defines no `filter`
binding, so for a non-empty array the first callback invocation evaluates
the unresolved identifier `filter` and throws a `ReferenceError`
(`Array.prototype.some` does not invoke the callback on an empty array, so
the empty array yields `false`).  The thrown error is modelled as
`Except.error`. -/
def applyFilter : Pred → Str → Str → Except String Bool
  | .bool b, _, _ => .ok b
  | .str s, key, _ => .ok (decide (s = key))
  | .regex t, key, _ => .ok (t key)
  | .fn f, key, val => .ok (f key val)
  | .arr [], _, _ => .ok false
  | .arr (_ :: _), _, _ => .error "ReferenceError: filter is not defined"

/-- `shouldFilterData` of `src/hast-data-to-properties.mjs`: same dispatch
as `applyPredicate`, with a correct recursive array branch
(`filter.some(flt => shouldFilterData(flt, key, val))`). -/
def shouldFilterData : Nat → Pred → Str → Str → Bool
  | 0, _, _, _ => false
  | _ + 1, .bool b, _, _ => b
  | _ + 1, .str s, key, _ => s = key
  | _ + 1, .regex t, key, _ => t key
  | _ + 1, .fn f, key, val => f key val
  | fuel + 1, .arr ps, key, val => ps.any (fun p => shouldFilterData fuel p key val)

/-! ## The HAST tree sweep (`dataToProperties`) -/

/-- A HAST node: type, tag name, the `properties` bag, the internal `data`
bag (absent or an object) and the children.  Fields not touched by the
sweep are omitted. -/
inductive HNode where
  | mk (ntype : Str) (tagName : Str) (properties : Obj) (data : Option Obj)
       (children : List HNode)

def HNode.ntype : HNode → Str | .mk t _ _ _ _ => t
def HNode.tagName : HNode → Str | .mk _ g _ _ _ => g
def HNode.properties : HNode → Obj | .mk _ _ p _ _ => p
def HNode.data : HNode → Option Obj | .mk _ _ _ d _ => d
def HNode.children : HNode → List HNode | .mk _ _ _ _ c => c

/-- The body of the `visit` callback in `dataToProperties`, for one node
with data bag `dat` and property bag `props`:
```
for (const [key, val] of Object.entries(node.data)) {
    if (!shouldFilterData(options?.filter?.data, key, val)) continue
    let name = asDataAttr(key) ?? asDataProp(key)
    if (!name) { console.debug(...); continue }
    node.properties[name] = val
    delete node.data[name]
}
if (Object.keys(node.data).length == 0) { delete node.data }
```
`Object.entries` snapshots the bag before the loop, so deletions during the
loop do not affect the iteration — hence the fold over the snapshot `dat`
with the evolving `(properties, data)` pair as accumulator.  Note that the
source deletes `node.data[name]` (the computed output name), not
`node.data[key]`.  The data filter is passed as its extension
`dflt : key → val → Bool` (`shouldFilterData` applied to the configured
predicate). -/
def sweepVisit (dflt : Str → Str → Bool) (props : Obj) (dat : Obj) : Obj × Option Obj :=
  let step := fun (pd : Obj × Obj) (kv : Str × Str) =>
    if dflt kv.1 kv.2 then
      match (asDataAttr kv.1).or (asDataProp kv.1) with
      | some name => (objSet pd.1 name kv.2, objDelete pd.2 name)
      | none => pd
    else pd
  let pd := dat.foldl step (props, dat)
  (pd.1, if pd.2.isEmpty then none else some pd.2)

/-- The `dataToProperties` transformer: `visit(tree, nodeTest, ...)`
traverses the whole tree and applies the visitor body to every node passing
`nodeTest` that has a data bag (`if (!node.data) return`; an empty object
is truthy in JS, so `data = some []` is processed — and then removed).
The default `nodeTest` is the `'element'` type test.  `fuel` bounds the
recursion depth (structural recursion through the nested `List HNode` is
kept kernel-reducible this way); any fuel exceeding the tree height gives
the full traversal. -/
def dataToProperties (nodeTest : HNode → Bool) (dflt : Str → Str → Bool) :
    Nat → HNode → HNode
  | 0, n => n
  | fuel + 1, .mk t tag props dat ch =>
    let pd :=
      if nodeTest (.mk t tag props dat ch) then
        match dat with
        | none => (props, none)
        | some d => sweepVisit dflt props d
      else (props, dat)
    .mk t tag pd.1 pd.2 (ch.map (dataToProperties nodeTest dflt fuel))

/-- The default node filter of `dataToProperties`: the unist test
`'element'`, i.e. `node.type === 'element'`. -/
def isElement (n : HNode) : Bool := n.ntype = "element".toList

/-! ## The MDAST code-node transforms -/

/-- The `data` field of an MDAST code node, of which only `hProperties` is
relevant here. -/
structure MdData where
  hProperties : Option Obj
deriving DecidableEq

/-- An MDAST `code` node: `lang`, `meta` and `data`.  `lang` and `meta` are
absent or strings (JS truthiness makes the empty string behave like an
absent one in every guard below). -/
structure MdNode where
  lang : Option Str
  meta : Option Str
  data : Option MdData
deriving DecidableEq

/-- JS truthiness of an optional string: present and non-empty. -/
def truthy : Option Str → Bool
  | some s => !s.isEmpty
  | none => false

/-- `Object.assign(target, Object.fromEntries(pairs))` where `pairs` is the
filtered, `data-`-prefixed attribute list: `Object.fromEntries` keeps the
first-occurrence position and the last value of a duplicated key, and
`Object.assign` then copies the entries in that order — the net effect on
`target` is setting each pair in order. -/
def assignAttrs (target : Obj) (incl : Str → Str → Bool) (attrs : List Attr) : Obj :=
  (attrs.filter (fun a => incl a.key a.val)).foldl
    (fun o a => objSet o ('d' :: 'a' :: 't' :: 'a' :: '-' :: a.key) a.val) target

/-- `preHandle` of `src/handler-code-meta.mjs`:
```
(node.data ??= {}).hProperties ??= {}
if (node.lang && langAttr) { node.data.hProperties[`data-${langAttr}`] = node.lang }
if (!node.meta) return
const { attrs, rest } = parser(node.meta)
Object.assign(node.data.hProperties, Object.fromEntries(
    attrs.filter(({key, val}) => applyPredicate(include, key, val))
         .map(({key, val}) => [`data-${key}`, val])))
if (rest) { node.meta = rest } else { delete node.meta }
```
The `include` predicate is passed as its extension (`applyPredicate`
applied to the configured predicate), and `parser` is the configurable
parsing function (`parseHandler` by default). -/
def preHandle (node : MdNode) (langAttr : Option Str) (parser : Str → ParseResult)
    (incl : Str → Str → Bool) : MdNode :=
  let props0 := match node.data with
    | some d => d.hProperties.getD []
    | none => []
  let props1 :=
    if truthy node.lang && truthy langAttr then
      objSet props0 ('d' :: 'a' :: 't' :: 'a' :: '-' :: langAttr.getD [])
        (node.lang.getD [])
    else props0
  if !truthy node.meta then
    { node with data := some ⟨some props1⟩ }
  else
    let r := parser (node.meta.getD [])
    let props2 := assignAttrs props1 incl r.attrs
    { lang := node.lang
      meta := match r.rest with
        | some rest => if rest.isEmpty then none else some rest
        | none => none
      data := some ⟨some props2⟩ }

/-- The body of the `visit` callback in `metaToDataset`
(`src/mdast-code-meta-to-dataset.mjs`):
```
if (!node.meta) return
const { attrs, rest } = parseFn(node.meta)
node.data ??= {}
node.data.hProperties ??= {}
if (langAttr && node.lang) { node.data.hProperties[`data-${langAttr}`] = node.lang }
Object.assign(node.data.hProperties, Object.fromEntries(...))
if (rest) { node.meta = rest } else { delete node.meta }
```
Unlike `preHandle`, the `!node.meta` guard comes first: a node without
(truthy) metadata is returned entirely unchanged, language attribute
included. -/
def metaToDatasetNode (node : MdNode) (langAttr : Option Str)
    (parseFn : Str → ParseResult) (incl : Str → Str → Bool) : MdNode :=
  if !truthy node.meta then node
  else
    let r := parseFn (node.meta.getD [])
    let props0 := match node.data with
      | some d => d.hProperties.getD []
      | none => []
    let props1 :=
      if truthy langAttr && truthy node.lang then
        objSet props0 ('d' :: 'a' :: 't' :: 'a' :: '-' :: langAttr.getD [])
          (node.lang.getD [])
      else props0
    let props2 := assignAttrs props1 incl r.attrs
    { lang := node.lang
      meta := match r.rest with
        | some rest => if rest.isEmpty then none else some rest
        | none => none
      data := some ⟨some props2⟩ }

/-- The `hProperties` bag of a node, empty when the `data` structure is
absent (read-only accessor used in theorem statements). -/
def hProps (n : MdNode) : Obj :=
  match n.data with
  | some d => d.hProperties.getD []
  | none => []

/-- The key grammar of the parser: `^(?!xml)[a-z_][a-z0-9_.-]*$`. -/
def isValidKey (k : Str) : Bool :=
  match k with
  | [] => false
  | c :: t => isKeyStart c && t.all isKeyChar && !startsWithXml k

/-- The identifier grammar of `asDataProp`: `^[A-Za-z_]\w*$`. -/
def isValidProp (p : Str) : Bool :=
  match p with
  | [] => false
  | c :: _ => (isLowerAZ c || isUpperAZ c || c == '_') && p.all isWordChar

/-- The maximal key-grammar prefix of a string (empty when no key can
start there). -/
def keyPre (s : Str) : Str :=
  match s with
  | [] => []
  | c :: rest =>
    if isKeyStart c && !startsWithXml s then c :: rest.takeWhile isKeyChar else []

/-- The remainder of a string after its maximal key-grammar prefix. -/
def keyRem (s : Str) : Str :=
  match s with
  | [] => []
  | c :: rest =>
    if isKeyStart c && !startsWithXml s then rest.dropWhile isKeyChar else s

/-! ## Helper lemmas -/

theorem charToNat_ofNat (n : Nat) (h : Nat.isValidChar n) : (Char.ofNat n).toNat = n := by
  simp only [Char.ofNat, h, dif_pos, Char.ofNatAux, Char.toNat, UInt32.ofNat']
  rfl

theorem toUpper_toNat (c : Char) (h : c.toNat ≥ 97 ∧ c.toNat ≤ 122) :
    c.toUpper.toNat = c.toNat - 32 := by
  simp only [Char.toUpper, h, if_true, and_true]
  exact charToNat_ofNat _ (Or.inl (by omega))

theorem charToNat_inj (a b : Char) (h : a.toNat = b.toNat) : a = b := by
  apply Char.ext
  unfold Char.toNat at h
  exact UInt32.toNat.inj h

theorem isLowerAZ_toNat (c : Char) (h : isLowerAZ c = true) :
    97 ≤ c.toNat ∧ c.toNat ≤ 122 := by
  simp [isLowerAZ, Char.le_def, UInt32.le_def] at h
  exact ⟨h.1, h.2⟩

theorem isWS_toNat (c : Char) (h : isWS c = true) :
    c.toNat = 32 ∨ c.toNat = 9 ∨ c.toNat = 10 ∨ c.toNat = 13 ∨ c.toNat = 11 ∨
    c.toNat = 12 ∨ c.toNat = 160 ∨ c.toNat = 5760 ∨
    (8192 ≤ c.toNat ∧ c.toNat ≤ 8202) ∨ c.toNat = 8232 ∨ c.toNat = 8233 ∨
    c.toNat = 8239 ∨ c.toNat = 8287 ∨ c.toNat = 12288 ∨ c.toNat = 65279 := by
  simp only [isWS, Bool.or_eq_true, beq_iff_eq, Bool.and_eq_true, decide_eq_true_eq] at h
  rcases h with ((((((((((((((h | h) | h) | h) | h) | h) | h) | h) | h) | h) | h) | h) | h) | h) | h)
  all_goals first
    | (subst h; simp [Char.toNat])
    | (simp [Char.le_def, UInt32.le_def] at h
       right; right; right; right; right; right; right; right
       left; exact ⟨h.1, h.2⟩)

theorem keyStart_keyChar (c : Char) (h : isKeyStart c = true) : isKeyChar c = true := by
  simp only [isKeyStart, Bool.or_eq_true] at h
  rcases h with h | h <;> simp [isKeyChar, h]

theorem keyStart_not_ws (c : Char) (h : isKeyStart c = true) : isWS c = false := by
  by_contra hws
  rw [Bool.not_eq_false] at hws
  have hn := isWS_toNat c hws
  simp only [isKeyStart, Bool.or_eq_true, beq_iff_eq] at h
  rcases h with h | h
  · have := isLowerAZ_toNat c h
    omega
  · subst h
    simp [Char.toNat, UInt32.size] at hn

theorem takeWhile_all {p : Char → Bool} {l : Str} (h : ∀ c ∈ l, p c = true) :
    l.takeWhile p = l :=
  List.takeWhile_eq_self_iff.mpr h

theorem dropWhile_all {p : Char → Bool} {l : Str} (h : ∀ c ∈ l, p c = true) :
    l.dropWhile p = [] :=
  List.dropWhile_eq_nil_iff.mpr h

theorem takeWhile_app {p : Char → Bool} {xs : Str} (y : Char) (ys : Str)
    (hxs : ∀ c ∈ xs, p c = true) (hy : p y = false) :
    (xs ++ y :: ys).takeWhile p = xs := by
  induction xs with
  | nil => simpa [List.takeWhile_cons] using hy
  | cons a t ih =>
    have ha : p a = true := hxs a (by simp)
    simp only [List.cons_append, List.takeWhile_cons, ha, if_true]
    rw [ih (fun c hc => hxs c (by simp [hc]))]

theorem dropWhile_app {p : Char → Bool} {xs : Str} (y : Char) (ys : Str)
    (hxs : ∀ c ∈ xs, p c = true) (hy : p y = false) :
    (xs ++ y :: ys).dropWhile p = y :: ys := by
  induction xs with
  | nil => simp [List.dropWhile_cons, hy]
  | cons a t ih =>
    have ha : p a = true := hxs a (by simp)
    simp only [List.cons_append, List.dropWhile_cons, ha, if_true]
    exact ih (fun c hc => hxs c (by simp [hc]))

theorem dropWhile_head_false {p : Char → Bool} {l t : Str} {c : Char}
    (h : l.dropWhile p = c :: t) : p c = false := by
  induction l with
  | nil => simp at h
  | cons a l ih =>
    rw [List.dropWhile_cons] at h
    by_cases ha : p a = true
    · exact ih (by simpa [ha] using h)
    · rw [if_neg ha] at h
      cases h
      simpa using ha

theorem mem_dropWhile_mem {p : Char → Bool} {l : Str} {x : Char}
    (h : x ∈ l.dropWhile p) : x ∈ l := by
  induction l with
  | nil => simp at h
  | cons a l ih =>
    rw [List.dropWhile_cons] at h
    by_cases ha : p a = true
    · exact List.mem_cons_of_mem a (ih (by simpa [ha] using h))
    · simpa [ha] using h

theorem takeWhile_eq_cons {p : Char → Bool} {l cs : Str} {c : Char}
    (h : l.takeWhile p = c :: cs) :
    ∃ t, l = c :: t ∧ cs = t.takeWhile p ∧ p c = true := by
  cases l with
  | nil => simp at h
  | cons a t =>
    rw [List.takeWhile_cons] at h
    by_cases ha : p a = true
    · rw [if_pos ha] at h
      cases h
      exact ⟨t, rfl, rfl, ha⟩
    · simp [ha] at h

theorem quotedMatch_none {q prev : Char} {cs : Str} (h : ∀ c ∈ cs, c ≠ q) :
    quotedMatch q prev cs = none := by
  induction cs generalizing prev with
  | nil => rfl
  | cons c t ih =>
    have hc : c ≠ q := h c (by simp)
    rw [quotedMatch, if_neg hc]
    by_cases hd : isDot c = true
    · rw [if_pos hd, ih (fun x hx => h x (by simp [hx]))]
    · rw [if_neg hd]

theorem quotedMatch_length {q prev : Char} {cs v r : Str}
    (h : quotedMatch q prev cs = some (v, r)) : r.length < cs.length := by
  induction cs generalizing prev v with
  | nil => simp [quotedMatch] at h
  | cons c t ih =>
    rw [quotedMatch] at h
    by_cases hc : c = q
    · rw [if_pos hc] at h
      by_cases hp : prev = '\\'
      · rw [if_pos hp] at h
        cases hqm : quotedMatch q c t with
        | some vr =>
          rw [hqm] at h
          cases h
          have := @ih c vr.1 (by rw [hqm])
          simpa using Nat.lt_succ_of_lt this
        | none =>
          rw [hqm] at h
          cases h
          simp
      · rw [if_neg hp] at h
        cases h
        simp
    · rw [if_neg hc] at h
      by_cases hd : isDot c = true
      · rw [if_pos hd] at h
        cases hqm : quotedMatch q c t with
        | some vr =>
          rw [hqm] at h
          cases h
          have := @ih c vr.1 (by rw [hqm])
          simpa using Nat.lt_succ_of_lt this
        | none => rw [hqm] at h; cases h
      · rw [if_neg hd] at h
        cases h

theorem length_dropWhile {p : Char → Bool} (l : Str) :
    (l.dropWhile p).length ≤ l.length := by
  induction l with
  | nil => simp
  | cons a t ih =>
    rw [List.dropWhile_cons]
    by_cases ha : p a = true
    · simp only [ha, if_true]
      exact Nat.le_succ_of_le ih
    · simp [ha]

theorem matchValue_key {ko : Bool} {k after r : Str} {a : Attr}
    (h : matchValue ko k after = some (a, r)) : a.key = k := by
  rcases after with _ | ⟨c, vs⟩ <;> simp only [matchValue] at h
  · split at h
    · cases h; rfl
    · cases h
  · by_cases hc : c = '='
    · rw [if_pos hc] at h
      rcases vs with _ | ⟨q, vrest⟩
      · simp only [] at h
        cases h; rfl
      · simp only [] at h
        by_cases hq : q = '"' ∨ q = '\''
        · rw [if_pos hq] at h
          rcases hqm : quotedMatch q q vrest with _ | ⟨v, r0⟩ <;> rw [hqm] at h <;>
            (cases h; rfl)
        · rw [if_neg hq] at h
          cases h; rfl
    · rw [if_neg hc] at h
      split at h
      · cases h; rfl
      · cases h

theorem matchValue_length {ko : Bool} {k after r : Str} {a : Attr}
    (h : matchValue ko k after = some (a, r)) : r.length ≤ after.length := by
  rcases after with _ | ⟨c, vs⟩ <;> simp only [matchValue] at h
  · split at h
    · cases h; simp
    · cases h
  · by_cases hc : c = '='
    · rw [if_pos hc] at h
      rcases vs with _ | ⟨q, vrest⟩
      · simp only [] at h
        cases h; simp
      · simp only [] at h
        by_cases hq : q = '"' ∨ q = '\''
        · rw [if_pos hq] at h
          rcases hqm : quotedMatch q q vrest with _ | ⟨v, r0⟩ <;> rw [hqm] at h
          · cases h
            calc (((q :: vrest).dropWhile (fun c => !isWS c)).dropWhile isWS).length
                ≤ ((q :: vrest).dropWhile (fun c => !isWS c)).length := length_dropWhile _
              _ ≤ (q :: vrest : Str).length := length_dropWhile _
              _ ≤ (c :: q :: vrest : Str).length := by simp
          · cases h
            have h1 : r0.length < vrest.length := quotedMatch_length hqm
            have h2 : (r0.dropWhile isWS).length ≤ r0.length := length_dropWhile _
            simp only [List.length_cons]
            omega
        · rw [if_neg hq] at h
          cases h
          calc (((q :: vrest).dropWhile (fun c => !isWS c)).dropWhile isWS).length
              ≤ ((q :: vrest).dropWhile (fun c => !isWS c)).length := length_dropWhile _
            _ ≤ (q :: vrest : Str).length := length_dropWhile _
            _ ≤ (c :: q :: vrest : Str).length := by simp
    · rw [if_neg hc] at h
      split at h
      · cases h
        exact length_dropWhile _
      · cases h

theorem matchAttr_key_valid {ko : Bool} {cs r : Str} {a : Attr}
    (h : matchAttr ko cs = some (a, r)) : isValidKey a.key = true := by
  rw [matchAttr] at h
  by_cases hx : startsWithXml (cs.dropWhile isWS) = true
  · simp [hx] at h
  · rw [if_neg hx] at h
    rcases hd : cs.dropWhile isWS with _ | ⟨c, rest⟩ <;> rw [hd] at h hx <;>
      simp only [] at h
    · cases h
    · by_cases hk : isKeyStart c = true
      · rw [if_pos hk] at h
        have hkey := matchValue_key h
        rw [hkey]
        have hall : (rest.takeWhile isKeyChar).all isKeyChar = true := by
          rw [List.all_eq_true]
          exact fun x hmem => List.mem_takeWhile_imp hmem
        have hxml : startsWithXml (c :: rest.takeWhile isKeyChar) = false := by
          by_contra hxk
          rw [Bool.not_eq_false] at hxk
          -- a key starting with `xml` forces the input at this position to
          -- start with `xml`, which the lookahead already excluded
          rcases htk : rest.takeWhile isKeyChar with _ | ⟨c2, k2⟩ <;> rw [htk] at hxk
          · rcases hc : c with _
            simp [startsWithXml] at hxk
          · rcases k2 with _ | ⟨c3, k3⟩
            · simp [startsWithXml] at hxk
            · simp only [startsWithXml, Bool.and_eq_true, decide_eq_true_eq] at hxk
              obtain ⟨⟨e1, e2⟩, e3⟩ := hxk
              obtain ⟨t1, ht1, ht2, hp1⟩ := takeWhile_eq_cons htk
              obtain ⟨t2, ht3, ht4, hp2⟩ := takeWhile_eq_cons ht2.symm
              rw [ht1, ht3] at hx
              rw [e1, e2, e3] at hx
              simp [startsWithXml] at hx
        simp [isValidKey, hk, hall, hxml]
      · rw [if_neg hk] at h
        cases h

theorem matchAttr_length {ko : Bool} {cs r : Str} {a : Attr}
    (h : matchAttr ko cs = some (a, r)) : r.length < cs.length := by
  rw [matchAttr] at h
  by_cases hx : startsWithXml (cs.dropWhile isWS) = true
  · simp [hx] at h
  · rw [if_neg hx] at h
    rcases hd : cs.dropWhile isWS with _ | ⟨c, rest⟩ <;> rw [hd] at h <;>
      simp only [] at h
    · cases h
    · by_cases hk : isKeyStart c = true
      · rw [if_pos hk] at h
        have h1 := matchValue_length h
        have h2 : (rest.dropWhile isKeyChar).length ≤ rest.length := length_dropWhile _
        have h3 : (c :: rest : Str).length ≤ cs.length := by
          rw [← hd]; exact length_dropWhile _
        simp only [List.length_cons] at h1 h3 ⊢
        omega
      · rw [if_neg hk] at h
        cases h

theorem parseLoopFuel_rest_ne {ko : Bool} {fuel : Nat} {cs r : Str}
    (h : (parseLoopFuel ko fuel cs).rest = some r) : r ≠ [] := by
  induction fuel generalizing cs with
  | zero =>
    rw [parseLoopFuel] at h
    by_cases he : cs.isEmpty
    · simp [he] at h
    · simp only [he, if_false] at h
      cases h
      simpa [List.isEmpty_iff] using he
  | succ fuel ih =>
    rw [parseLoopFuel] at h
    rcases hm : matchAttr ko cs with _ | ⟨a, r0⟩ <;> rw [hm] at h <;> simp only [] at h
    · by_cases he : cs.isEmpty
      · simp [he] at h
      · simp only [he, if_false] at h
        cases h
        simpa [List.isEmpty_iff] using he
    · exact ih h

theorem parseLoopFuel_keys_valid {ko : Bool} {fuel : Nat} {cs : Str} {a : Attr}
    (h : a ∈ (parseLoopFuel ko fuel cs).attrs) : isValidKey a.key = true := by
  induction fuel generalizing cs with
  | zero => rw [parseLoopFuel] at h; simp at h
  | succ fuel ih =>
    rw [parseLoopFuel] at h
    rcases hm : matchAttr ko cs with _ | ⟨a0, r0⟩ <;> rw [hm] at h <;> simp only [] at h
    · simp at h
    · simp only [List.mem_cons] at h
      rcases h with rfl | h
      · exact matchAttr_key_valid hm
      · exact ih h

theorem parseLoopFuel_congr {ko : Bool} :
    ∀ (f g : Nat) (cs : Str), cs.length < f → cs.length < g →
      parseLoopFuel ko f cs = parseLoopFuel ko g cs := by
  intro f
  induction f with
  | zero => intro g cs hf; omega
  | succ f ih =>
    intro g cs hf hg
    rcases g with _ | g
    · omega
    rw [parseLoopFuel, parseLoopFuel]
    rcases hm : matchAttr ko cs with _ | ⟨a, r⟩
    · rfl
    · have hlt := matchAttr_length hm
      simp only []
      rw [ih g r (by omega) (by omega)]

theorem parseLoopFuel_nil (ko : Bool) (fuel : Nat) :
    parseLoopFuel ko fuel [] = ⟨[], none⟩ := by
  cases fuel <;> rfl

theorem startsWithXml_head {c : Char} {l : Str} (h : startsWithXml (c :: l) = true) :
    c = 'x' := by
  rcases l with _ | ⟨c2, l2⟩
  · simp [startsWithXml] at h
  · rcases l2 with _ | ⟨c3, l3⟩
    · simp [startsWithXml] at h
    · simp only [startsWithXml, Bool.and_eq_true, decide_eq_true_eq] at h
      exact h.1.1

theorem startsWithXml_key_append {k : Str} (hk : isValidKey k = true) (rest : Str) :
    startsWithXml (k ++ '=' :: rest) = false := by
  rcases k with _ | ⟨c1, k1⟩
  · simp [isValidKey] at hk
  · simp only [isValidKey, Bool.and_eq_true, Bool.not_eq_true'] at hk
    obtain ⟨⟨h1, _⟩, h3⟩ := hk
    rcases k1 with _ | ⟨c2, k2⟩
    · rcases rest with _ | ⟨r1, rt⟩ <;> simp [startsWithXml]
    · rcases k2 with _ | ⟨c3, k3⟩
      · simp [startsWithXml]
      · simp only [List.cons_append, startsWithXml] at h3 ⊢
        exact h3

theorem asDataAttr_of_valid {k : Str} (h : isValidKey k = true) :
    asDataAttr k = some ('d' :: 'a' :: 't' :: 'a' :: '-' :: k) := by
  rcases k with _ | ⟨c, t⟩
  · simp [isValidKey] at h
  · simp only [isValidKey, Bool.and_eq_true, Bool.not_eq_true'] at h
    obtain ⟨⟨h1, h2⟩, h3⟩ := h
    simp [asDataAttr, List.all_cons, h2, h3, keyStart_keyChar c h1, h1]

theorem objGet_cons (hd : Str × Str) (tl : Obj) (kq : Str) :
    objGet (hd :: tl) kq = if hd.1 = kq then some hd.2 else objGet tl kq := by
  simp only [objGet, List.find?]
  by_cases h : hd.1 = kq <;> simp [h]

theorem objGet_set (o : Obj) (k v kq : Str) :
    objGet (objSet o k v) kq = if k = kq then some v else objGet o kq := by
  induction o with
  | nil => by_cases hk : k = kq <;> simp [objSet, objGet_cons, objGet, hk]
  | cons hd tl ih =>
    by_cases h1 : hd.1 = k
    · rw [objSet, if_pos h1, objGet_cons]
      by_cases hk : k = kq
      · simp [hk]
      · have h2 : ¬ hd.1 = kq := by rw [h1]; exact hk
        simp [hk, objGet_cons, h2]
    · rw [objSet, if_neg h1, objGet_cons, objGet_cons, ih]
      by_cases h2 : hd.1 = kq
      · have hk : ¬ k = kq := fun e => h1 (by rw [h2, e])
        simp [h2, hk]
      · simp [h2]

theorem objGet_foldl_set_ne_none {k : Str} (f : Attr → Str) (g : Attr → Str) :
    ∀ (l : List Attr) (o : Obj), objGet o k ≠ none →
      objGet (l.foldl (fun o a => objSet o (f a) (g a)) o) k ≠ none := by
  intro l
  induction l with
  | nil => intro o h; exact h
  | cons a t ih =>
    intro o h
    rw [List.foldl_cons]
    apply ih
    rw [objGet_set]
    by_cases he : f a = k
    · simp [he]
    · simpa [he] using h

theorem assignAttrs_ne_none {o : Obj} {k : Str} (incl : Str → Str → Bool)
    (attrs : List Attr) (h : objGet o k ≠ none) :
    objGet (assignAttrs o incl attrs) k ≠ none := by
  rw [assignAttrs]
  exact objGet_foldl_set_ne_none _ _ _ o h

theorem dataDashList (la : Str) :
    "data-".toList ++ la = 'd' :: 'a' :: 't' :: 'a' :: '-' :: la := rfl

/-! ## Claim theorems -/

/-- C8: for every input string, `parse` never raises an error — the
embedding of both variants is a total function by construction — and it
always returns a (possibly empty) attribute list plus, when the input is
not fully consumed (`rest` present), a non-empty `rest`. -/
theorem C8_parse_total_rest_nonempty (s r : Str) :
    ((parseHandler s).rest = some r → r ≠ []) ∧
    ((parseDataset s).rest = some r → r ≠ []) :=
  ⟨parseLoopFuel_rest_ne, parseLoopFuel_rest_ne⟩

/-- Witness for C8 at the concrete input `#`, which is left entirely in
`rest`. -/
theorem C8_witness : ("#".toList : Str) ≠ [] :=
  (C8_parse_total_rest_nonempty "#".toList "#".toList).1 (by decide)

/-- C10: every key in the attribute list returned by either `parse`
variant, on any input, matches `^(?!xml)[a-z_][a-z0-9_.-]*$`; consequently
it is accepted by `asDataAttr`, which maps it to `data-` + key. -/
theorem C10_parsed_keys_safe (s : Str) (a : Attr)
    (h : a ∈ (parseHandler s).attrs ∨ a ∈ (parseDataset s).attrs) :
    isValidKey a.key = true ∧ asDataAttr a.key = some ("data-".toList ++ a.key) := by
  have hv : isValidKey a.key = true := by
    rcases h with h | h <;> exact parseLoopFuel_keys_valid h
  rw [dataDashList]
  exact ⟨hv, asDataAttr_of_valid hv⟩

/-- Witness for C10 at the concrete input `foo`, parsed as the key-only
attribute `foo`. -/
theorem C10_witness :
    isValidKey "foo".toList = true ∧
    asDataAttr "foo".toList = some ("data-".toList ++ "foo".toList) :=
  C10_parsed_keys_safe "foo".toList ⟨"foo".toList, []⟩ (Or.inl (by decide))

/-- C5 counterexample: the claim says `parse("   ")` yields an absent
`rest`, but in both variants no match ever succeeds on whitespace-only
input, so `lidx` stays `0` and `rest` is the whole input. -/
theorem C5_counterexample :
    (parseHandler "   ".toList).rest ≠ none ∧
    (parseDataset "   ".toList).rest ≠ none := by decide

/-- C5 amended: `parse("")` yields `{attrs: [], rest: absent}` in both
variants, but an input consisting only of whitespace yields
`{attrs: [], rest: the input itself, verbatim}` — the whitespace is not
consumed, because `rest` starts at the end of the last successful match
and there is none. -/
theorem C5_amended :
    parseHandler [] = ⟨[], none⟩ ∧ parseDataset [] = ⟨[], none⟩ ∧
    ∀ s : Str, s ≠ [] → (∀ c ∈ s, isWS c = true) →
      parseHandler s = ⟨[], some s⟩ ∧ parseDataset s = ⟨[], some s⟩ := by
  refine ⟨by decide, by decide, ?_⟩
  intro s hne hws
  have hm : ∀ ko, matchAttr ko s = none := by
    intro ko
    simp [matchAttr, dropWhile_all hws, startsWithXml]
  have key : ∀ ko, parseLoopFuel ko (s.length + 1) s = ⟨[], some s⟩ := by
    intro ko
    rw [parseLoopFuel, hm ko]
    simp [List.isEmpty_iff, hne]
  exact ⟨key true, key false⟩

/-- Witness for C5 (amended part) at the single-space input. -/
theorem C5_witness :
    parseHandler " ".toList = ⟨[], some " ".toList⟩ ∧
    parseDataset " ".toList = ⟨[], some " ".toList⟩ :=
  C5_amended.2.2 " ".toList (by decide) (by decide)

/-- C7: in `handler-code-meta.mjs`, an array include predicate is the
short-circuiting OR of its elements (`Array.prototype.some`), and the
evaluation is total; but in `mdast-code-meta-to-dataset.mjs` the array
branch of `applyFilter` calls the unresolved identifier `filter`, so
evaluating any non-empty array predicate throws a `ReferenceError` instead
of computing the OR — here at the concrete predicate `['caption']` applied
to the attribute `('caption', '')`. -/
theorem C7_array_or_but_applyFilter_raises :
    (∀ (fuel : Nat) (ps : List Pred) (k v : Str),
        applyPredicate (fuel + 1) (.arr ps) k v = true ↔
          ∃ p ∈ ps, applyPredicate fuel p k v = true) ∧
    applyFilter (.arr [.str "caption".toList]) "caption".toList [] =
      .error "ReferenceError: filter is not defined" := by
  constructor
  · intro fuel ps k v
    simp [applyPredicate, List.any_eq_true]
  · rfl

/-- C2: the sweep writes the value under the computed name into
`properties`, but `delete node.data[name]` deletes the computed name — not
the original key — from the data bag, so the original entry survives and
the bag is not removed.  Concretely, for an element node with
`data = {foo: "x"}` and an accept-all data filter, after the sweep
`properties` holds `data-foo -> "x"` while `data` still holds
`foo -> "x"`. -/
theorem C2_sweep_keeps_consumed_entry :
    (dataToProperties isElement (fun _ _ => true) 1
        (.mk "element".toList "code".toList []
          (some [("foo".toList, "x".toList)]) [])).properties
      = [("data-foo".toList, "x".toList)] ∧
    (dataToProperties isElement (fun _ _ => true) 1
        (.mk "element".toList "code".toList []
          (some [("foo".toList, "x".toList)]) [])).data
      = some [("foo".toList, "x".toList)] := by decide

/-- The single-node tree on which the sweep is not idempotent: the first
run moves `Foo` to the property `dataFoo` and deletes the data entry
`dataFoo` (keyed by the computed *name*), so the second run no longer sees
`dataFoo` and the property `dataDataFoo` flips from `"B"` (last writer in
run one) to `"A"`. -/
def collidingNode : HNode :=
  .mk "element".toList "code".toList []
    (some [("DataFoo".toList, "A".toList), ("dataFoo".toList, "B".toList),
           ("Foo".toList, "C".toList)]) []

/-- C9: the sweep is not idempotent — running it twice on `collidingNode`
changes the property bag again, because the buggy
`delete node.data[name]` removed a *different* surviving entry (`dataFoo`)
rather than the consumed keys. -/
theorem C9_sweep_not_idempotent :
    (dataToProperties isElement (fun _ _ => true) 1
        (dataToProperties isElement (fun _ _ => true) 1 collidingNode)).properties
      ≠ (dataToProperties isElement (fun _ _ => true) 1 collidingNode).properties := by
  decide

/-- C4 counterexample: `asDataProp` maps the two distinct accepted inputs
`abc` and `Abc` to the same name `dataAbc`, so it is not injective on its
validity domain and no inverse `unmap` with `unmap(map(x)) == x` can
exist. -/
theorem C4_counterexample :
    asDataProp "abc".toList = some "dataAbc".toList ∧
    asDataProp "Abc".toList = some "dataAbc".toList ∧
    "abc".toList ≠ "Abc".toList := by decide

theorem asDataAttr_some {x z : Str} (h : asDataAttr x = some z) :
    z = 'd' :: 'a' :: 't' :: 'a' :: '-' :: x := by
  rcases x with _ | ⟨c, t⟩
  · simp [asDataAttr] at h
  · rw [asDataAttr] at h
    split at h
    · exact (Option.some.inj h).symm
    · cases h

theorem asDataProp_some {x z : Str} (h : asDataProp x = some z) :
    ∃ c t, x = c :: t ∧ z = 'd' :: 'a' :: 't' :: 'a' :: c.toUpper :: t ∧
      (isLowerAZ c || isUpperAZ c || c == '_') = true ∧
      (c :: t).all isWordChar = true := by
  rcases x with _ | ⟨c, t⟩
  · simp [asDataProp] at h
  · rw [asDataProp] at h
    split at h
    · rename_i hcond
      rw [Bool.and_eq_true] at hcond
      exact ⟨c, t, rfl, (Option.some.inj h).symm, hcond.1, hcond.2⟩
    · cases h

theorem toUpper_underscore : ('_' : Char).toUpper = '_' := by decide

/-- `Char.toUpper` is injective on `[a-z] ∪ {_}` (the non-uppercase part
of the identifier grammar's first-character class). -/
theorem toUpper_inj_nonupper {a b : Char}
    (ha : isLowerAZ a = true ∨ a = '_') (hb : isLowerAZ b = true ∨ b = '_')
    (h : a.toUpper = b.toUpper) : a = b := by
  rcases ha with ha | rfl <;> rcases hb with hb | rfl
  · have na := isLowerAZ_toNat a ha
    have nb := isLowerAZ_toNat b hb
    have ea : a.toUpper.toNat = a.toNat - 32 := toUpper_toNat a ⟨na.1, na.2⟩
    have eb : b.toUpper.toNat = b.toNat - 32 := toUpper_toNat b ⟨nb.1, nb.2⟩
    apply charToNat_inj
    have := congrArg Char.toNat h
    rw [ea, eb] at this
    omega
  · exfalso
    have na := isLowerAZ_toNat a ha
    have ea : a.toUpper.toNat = a.toNat - 32 := toUpper_toNat a ⟨na.1, na.2⟩
    rw [toUpper_underscore] at h
    have : a.toUpper.toNat = ('_' : Char).toNat := by rw [h]
    rw [ea] at this
    have h95 : ('_' : Char).toNat = 95 := by decide
    omega
  · exfalso
    have nb := isLowerAZ_toNat b hb
    have eb : b.toUpper.toNat = b.toNat - 32 := toUpper_toNat b ⟨nb.1, nb.2⟩
    rw [toUpper_underscore] at h
    have : ('_' : Char).toNat = b.toUpper.toNat := by rw [h]
    rw [eb] at this
    have h95 : ('_' : Char).toNat = 95 := by decide
    omega
  · rfl

/-- C4 amended: `asDataAttr` is a bijection onto its image when restricted
to its validity domain — injective, inverted by stripping the `data-`
prefix, and an explicit no-result outside the domain.  `asDataProp`
likewise returns no result outside its validity domain, but it is
injective only on inputs whose first character is not an uppercase letter:
in general it identifies pairs differing exactly in the case of the first
character (see the counterexample `abc` / `Abc`). -/
theorem C4_amended :
    (∀ x y z : Str, asDataAttr x = some z → asDataAttr y = some z → x = y) ∧
    (∀ x z : Str, asDataAttr x = some z → z = "data-".toList ++ x) ∧
    (∀ x : Str, (asDataAttr x).isSome = true ↔ isValidKey x = true) ∧
    (∀ x y z : Str, asDataProp x = some z → asDataProp y = some z →
        isUpperAZ x.headI = false → isUpperAZ y.headI = false → x = y) ∧
    (∀ x : Str, (asDataProp x).isSome = true ↔ isValidProp x = true) := by
  refine ⟨?_, ?_, ?_, ?_, ?_⟩
  · intro x y z hx hy
    have ex := asDataAttr_some hx
    have ey := asDataAttr_some hy
    rw [ex] at ey
    simpa using ey
  · intro x z hx
    rw [dataDashList]
    exact asDataAttr_some hx
  · intro x
    rcases x with _ | ⟨c, t⟩
    · simp [asDataAttr, isValidKey]
    · by_cases hk : isKeyStart c = true
      · have hc := keyStart_keyChar c hk
        simp [asDataAttr, isValidKey, hk, hc, List.all_cons]
      · have hk0 : isKeyStart c = false := by simpa using hk
        simp [asDataAttr, isValidKey, hk0]
  · intro x y z hx hy hux huy
    obtain ⟨c, t, rfl, ez, hc, _⟩ := asDataProp_some hx
    obtain ⟨b, u, rfl, ez2, hb, _⟩ := asDataProp_some hy
    simp only [List.headI] at hux huy
    rw [ez] at ez2
    simp only [List.cons.injEq, true_and] at ez2
    have heq : c.toUpper = b.toUpper := ez2.1
    have ht : t = u := ez2.2
    have hc2 : isLowerAZ c = true ∨ c = '_' := by
      simp only [Bool.or_eq_true, beq_iff_eq] at hc
      rcases hc with (hc | hc) | hc
      · exact Or.inl hc
      · rw [hc] at hux; cases hux
      · exact Or.inr hc
    have hb2 : isLowerAZ b = true ∨ b = '_' := by
      simp only [Bool.or_eq_true, beq_iff_eq] at hb
      rcases hb with (hb | hb) | hb
      · exact Or.inl hb
      · rw [hb] at huy; cases huy
      · exact Or.inr hb
    rw [toUpper_inj_nonupper hc2 hb2 heq, ht]
  · intro x
    rcases x with _ | ⟨c, t⟩
    · simp [asDataProp, isValidProp]
    · simp [asDataProp, isValidProp]

/-- Witness for C4 (amended): the prefix inversion at `source-url` and the
restricted injectivity at `it`. -/
theorem C4_witness :
    "data-source-url".toList = "data-".toList ++ "source-url".toList ∧
    "it".toList = ("it".toList : Str) :=
  ⟨C4_amended.2.1 "source-url".toList "data-source-url".toList (by decide),
   C4_amended.2.2.2.1 "it".toList "it".toList "dataIt".toList
     (by decide) (by decide) (by decide) (by decide)⟩

/-- C3 counterexample: in `mdast-code-meta-to-dataset.mjs` the guard
`if (!node.meta) return` precedes the language write, so a code node with
a language but no metadata is returned entirely unchanged — no
`data-language` attribute is written, contradicting the claim that the
language write happens regardless of whether the node has a meta string. -/
theorem C3_counterexample :
    metaToDatasetNode ⟨some "js".toList, none, none⟩ (some "language".toList)
        parseDataset (fun _ _ => true)
      = ⟨some "js".toList, none, none⟩ ∧
    objGet (hProps (metaToDatasetNode ⟨some "js".toList, none, none⟩
        (some "language".toList) parseDataset (fun _ _ => true)))
      ("data-".toList ++ "language".toList) = none := by decide

/-- C3 amended: in `handler-code-meta.mjs`, `preHandle` writes the
language attribute for every node with a (truthy) language and enabled
`langAttr`, for every include predicate and every parser, whether or not
the node has metadata — the key `data-<langAttr>` is always present
afterwards, and when the node has no (truthy) metadata its value is
exactly the node's language.  In `mdast-code-meta-to-dataset.mjs` the same
holds only for nodes with a present, non-empty `meta`: the meta guard
returns before the language write otherwise. -/
theorem C3_amended :
    (∀ (node : MdNode) (la l : Str) (parser : Str → ParseResult)
        (incl : Str → Str → Bool),
        node.lang = some l → l ≠ [] → la ≠ [] →
        objGet (hProps (preHandle node (some la) parser incl))
            ("data-".toList ++ la) ≠ none ∧
          (node.meta.getD [] = [] →
            objGet (hProps (preHandle node (some la) parser incl))
              ("data-".toList ++ la) = some l)) ∧
    (∀ (node : MdNode) (la l m : Str) (parseFn : Str → ParseResult)
        (incl : Str → Str → Bool),
        node.lang = some l → l ≠ [] → la ≠ [] → node.meta = some m → m ≠ [] →
        objGet (hProps (metaToDatasetNode node (some la) parseFn incl))
          ("data-".toList ++ la) ≠ none) := by
  constructor
  · intro node la l parser incl hlang hl hla
    have htl : truthy (some l) = true := by
      simp [truthy, List.isEmpty_iff, hl]
    have hta : truthy (some la) = true := by
      simp [truthy, List.isEmpty_iff, hla]
    rw [dataDashList]
    by_cases hm : truthy node.meta = true
    · constructor
      · simp only [preHandle, hlang, htl, hta, Bool.and_self, if_true, hm,
          Bool.not_true, Bool.false_eq_true, if_false, hProps, Option.getD]
        apply assignAttrs_ne_none
        rw [objGet_set]
        simp
      · intro hmeta
        exfalso
        rcases hme : node.meta with _ | m
        · rw [hme] at hm; simp [truthy] at hm
        · rw [hme] at hm hmeta
          simp only [Option.getD] at hmeta
          simp [truthy, List.isEmpty_iff, hmeta] at hm
    · have hm0 : truthy node.meta = false := by simpa using hm
      have key : objGet (hProps (preHandle node (some la) parser incl))
          ('d' :: 'a' :: 't' :: 'a' :: '-' :: la) = some l := by
        simp only [preHandle, hlang, htl, hta, Bool.and_self, Bool.and_true,
          if_true, hm0, Bool.not_false, hProps, Option.getD]
        rw [objGet_set]
        simp
      exact ⟨by rw [key]; simp, fun _ => key⟩
  · intro node la l m parseFn incl hlang hl hla hmeta hm
    have htl : truthy (some l) = true := by
      simp [truthy, List.isEmpty_iff, hl]
    have hta : truthy (some la) = true := by
      simp [truthy, List.isEmpty_iff, hla]
    have htm : truthy node.meta = true := by
      rw [hmeta]; simp [truthy, List.isEmpty_iff, hm]
    rw [dataDashList]
    simp only [metaToDatasetNode, htm, Bool.not_true, Bool.false_eq_true,
      if_false, hlang, hta, htl, Bool.and_self, Bool.and_true, Bool.true_and,
      if_true, hProps, Option.getD]
    apply assignAttrs_ne_none
    rw [objGet_set]
    simp

/-- Witness for C3 (amended): a node with language `js` and no metadata
through `preHandle`, and one with metadata `a=b` through
`metaToDatasetNode`. -/
theorem C3_witness :
    objGet (hProps (preHandle ⟨some "js".toList, none, none⟩
        (some "language".toList) parseHandler (fun _ _ => false)))
      ("data-".toList ++ "language".toList) = some "js".toList ∧
    objGet (hProps (metaToDatasetNode ⟨some "js".toList, some "a=b".toList, none⟩
        (some "language".toList) parseDataset (fun _ _ => false)))
      ("data-".toList ++ "language".toList) ≠ none :=
  ⟨(C3_amended.1 ⟨some "js".toList, none, none⟩ "language".toList "js".toList
      parseHandler (fun _ _ => false) rfl (by decide) (by decide)).2 (by decide),
   C3_amended.2 ⟨some "js".toList, some "a=b".toList, none⟩ "language".toList
      "js".toList "a=b".toList parseDataset (fun _ _ => false) rfl (by decide)
      (by decide) rfl (by decide)⟩

/-- C1 counterexample: on `caption="oops` (unterminated quote) both
`parse` variants do match the token as an attribute — the quoted
alternative fails, but the regex backtracks into the `(?<uval>\S*)`
alternative, which captures `"oops` (opening quote included) — so `attrs`
is not empty, contradicting the claim that `attrs = []` and that the
malformed token is returned verbatim in `rest`. -/
theorem C1_counterexample :
    (parseHandler "caption=\"oops".toList).attrs ≠ [] ∧
    (parseDataset "caption=\"oops".toList).attrs ≠ [] := by decide

/-- C1 amended: for every valid key `k` and every run `w` free of
whitespace and of `"` characters, the input `k="w` (opening quote never
closed) parses in both variants as the single attribute
`k -> "w` — the whole token, opening quote included, becomes the unquoted
value via the `\S*` fallback — with `rest` absent, not as a failed match
left verbatim in `rest`. -/
theorem C1_amended (k w : Str) (hk : isValidKey k = true)
    (hw : ∀ c ∈ w, isWS c = false ∧ c ≠ '"') :
    parseHandler (k ++ '=' :: '"' :: w) = ⟨[⟨k, '"' :: w⟩], none⟩ ∧
    parseDataset (k ++ '=' :: '"' :: w) = ⟨[⟨k, '"' :: w⟩], none⟩ := by
  rcases k with _ | ⟨c, t⟩
  · simp [isValidKey] at hk
  have hk2 := hk
  simp only [isValidKey, Bool.and_eq_true, Bool.not_eq_true'] at hk2
  obtain ⟨⟨h1, h2⟩, h3⟩ := hk2
  have h2m : ∀ x ∈ t, isKeyChar x = true := List.all_eq_true.mp h2
  have hmatch : ∀ ko, matchAttr ko ((c :: t) ++ '=' :: '"' :: w)
      = some (⟨c :: t, '"' :: w⟩, []) := by
    intro ko
    have hnws : isWS c = false := keyStart_not_ws c h1
    have hdw : ((c :: t) ++ '=' :: '"' :: w).dropWhile isWS
        = c :: (t ++ '=' :: '"' :: w) := by
      rw [List.cons_append, List.dropWhile_cons_of_neg]
      simp [hnws]
    simp only [matchAttr, hdw]
    rw [show startsWithXml (c :: (t ++ '=' :: '"' :: w)) = false from by
      rw [← List.cons_append]; exact startsWithXml_key_append hk _]
    simp only [Bool.false_eq_true, if_false]
    rw [if_pos h1]
    rw [takeWhile_app '=' ('"' :: w) h2m (by decide),
        dropWhile_app '=' ('"' :: w) h2m (by decide)]
    simp only [matchValue, eq_self_iff_true, true_or, if_true]
    rw [quotedMatch_none (fun x hx => ((hw x hx).2 : x ≠ '"'))]
    have hnq : ∀ x ∈ ('"' :: w : Str), (!isWS x) = true := by
      intro x hx
      rcases List.mem_cons.mp hx with rfl | hx
      · decide
      · simp [(hw x hx).1]
    rw [takeWhile_all hnq, dropWhile_all hnq]
    rfl
  have hloop : ∀ ko, parseLoopFuel ko (((c :: t) ++ '=' :: '"' :: w).length + 1)
      ((c :: t) ++ '=' :: '"' :: w) = ⟨[⟨c :: t, '"' :: w⟩], none⟩ := by
    intro ko
    rw [parseLoopFuel, hmatch ko]
    simp only []
    rw [parseLoopFuel_nil]
  exact ⟨hloop true, hloop false⟩

/-- Witness for C1 (amended) at the spec's own example `caption="oops`. -/
theorem C1_witness :
    parseHandler ("caption".toList ++ '=' :: '"' :: "oops".toList)
      = ⟨[⟨"caption".toList, '"' :: "oops".toList⟩], none⟩ ∧
    parseDataset ("caption".toList ++ '=' :: '"' :: "oops".toList)
      = ⟨[⟨"caption".toList, '"' :: "oops".toList⟩], none⟩ :=
  C1_amended "caption".toList "oops".toList (by decide) (by decide)

/-- C6 counterexample: `foo#bar` contains no `=`, no quote and no
whitespace, and does not match the key grammar as a whole — yet the
handler-variant `parse` returns the key-only attribute `foo` and
`rest = "#bar"`, not `attrs = []` with the whole input in `rest` as the
claim's else-branch states. -/
theorem C6_counterexample :
    (∀ c ∈ "foo#bar".toList, c ≠ '=' ∧ c ≠ '"' ∧ c ≠ '\'' ∧ isWS c = false) ∧
    isValidKey "foo#bar".toList = false ∧
    (parseHandler "foo#bar".toList).attrs ≠ [] ∧
    (parseHandler "foo#bar".toList).rest ≠ some "foo#bar".toList := by decide

/-- C6 amended: for a string `s` with no `=`, no quotes and no whitespace,
the handler-variant `parse` behaves as follows.  If `s` matches the key
grammar as a whole, it yields the single key-only attribute
`{key: s, val: ""}` with `rest` absent.  If `s` is empty, `attrs = []` and
`rest` is absent.  If no key-grammar prefix starts at position 0 (first
character not in `[a-z_]`, or `s` starts with `xml`), `attrs = []` and
`rest = s`.  Otherwise (a proper non-empty key-grammar prefix), the prefix
becomes a key-only attribute and the non-empty remainder becomes `rest` —
the claim's two cases cover only the first and third of these four. -/
theorem C6_amended (s : Str)
    (hplain : ∀ c ∈ s, c ≠ '=' ∧ c ≠ '"' ∧ c ≠ '\'' ∧ isWS c = false) :
    (isValidKey s = true → parseHandler s = ⟨[⟨s, []⟩], none⟩) ∧
    (s = [] → parseHandler s = ⟨[], none⟩) ∧
    (s ≠ [] → keyPre s = [] → parseHandler s = ⟨[], some s⟩) ∧
    (keyPre s ≠ [] → keyRem s ≠ [] →
      parseHandler s = ⟨[⟨keyPre s, []⟩], some (keyRem s)⟩) := by
  refine ⟨?_, ?_, ?_, ?_⟩
  · -- whole string is a key: one key-only match consumes everything
    intro hv
    rcases s with _ | ⟨c, t⟩
    · simp [isValidKey] at hv
    have hv2 := hv
    simp only [isValidKey, Bool.and_eq_true, Bool.not_eq_true'] at hv2
    obtain ⟨⟨h1, h2⟩, h3⟩ := hv2
    have h2m : ∀ x ∈ t, isKeyChar x = true := List.all_eq_true.mp h2
    have hnws : isWS c = false := (hplain c (by simp)).2.2.2
    have hmatch : matchAttr true (c :: t) = some (⟨c :: t, []⟩, []) := by
      have hdw : (c :: t).dropWhile isWS = c :: t :=
        List.dropWhile_cons_of_neg (by simp [hnws])
      simp only [matchAttr, hdw, h3, Bool.false_eq_true, if_false]
      rw [if_pos h1, takeWhile_all h2m, dropWhile_all h2m]
      rfl
    show parseLoopFuel true ((c :: t).length + 1) (c :: t) = _
    rw [parseLoopFuel, hmatch]
    simp only []
    rw [parseLoopFuel_nil]
  · -- empty input: no match, everything consumed, rest absent
    rintro rfl
    exact parseLoopFuel_nil _ _
  · -- no key can start at position 0: no match, rest is the whole input
    intro hne hkp
    rcases s with _ | ⟨c, t⟩
    · exact absurd rfl hne
    have hnws : isWS c = false := (hplain c (by simp)).2.2.2
    have hdw : (c :: t).dropWhile isWS = c :: t :=
      List.dropWhile_cons_of_neg (by simp [hnws])
    rw [keyPre] at hkp
    have hcond : (isKeyStart c && !startsWithXml (c :: t)) = false := by
      by_contra hc
      rw [Bool.not_eq_false] at hc
      rw [if_pos hc] at hkp
      cases hkp
    have hmatch : matchAttr true (c :: t) = none := by
      simp only [matchAttr, hdw]
      rcases Bool.and_eq_false_iff.mp hcond with hc | hc
      · by_cases hx : startsWithXml (c :: t) = true
        · simp [hx]
        · simp only [Bool.not_eq_true] at hx
          simp [hx, hc]
      · have hx : startsWithXml (c :: t) = true := by
          rcases hb : startsWithXml (c :: t) with _ | _
          · rw [hb] at hc; cases hc
          · rfl
        simp [hx]
    show parseLoopFuel true ((c :: t).length + 1) (c :: t) = _
    rw [parseLoopFuel, hmatch]
    rfl
  · -- a proper key prefix: one key-only match, then the scan stops at the
    -- first non-key character, which ends up in rest verbatim
    intro hkp hkr
    rcases s with _ | ⟨c, t⟩
    · exact absurd rfl hkp
    rw [keyPre] at hkp ⊢
    rw [keyRem] at hkr ⊢
    have hcond : (isKeyStart c && !startsWithXml (c :: t)) = true := by
      by_contra hc
      rw [Bool.not_eq_true] at hc
      rw [if_neg (by simp [hc])] at hkp
      exact hkp rfl
    simp only [hcond, if_true, eq_self_iff_true] at hkp hkr ⊢
    obtain ⟨h1, h3⟩ := Bool.and_eq_true_iff.mp hcond
    rw [Bool.not_eq_true'] at h3
    rcases hdrop : t.dropWhile isKeyChar with _ | ⟨h0, tl⟩
    · rw [hdrop] at hkr; exact absurd rfl hkr
    have hh : isKeyChar h0 = false := dropWhile_head_false hdrop
    have h0mem : h0 ∈ (c :: t : Str) :=
      List.mem_cons_of_mem c (mem_dropWhile_mem (hdrop ▸ List.mem_cons_self h0 tl))
    have h0ne : h0 ≠ '=' := (hplain h0 h0mem).1
    have h0ws : isWS h0 = false := (hplain h0 h0mem).2.2.2
    have hnws : isWS c = false := (hplain c (by simp)).2.2.2
    have hmatch1 : matchAttr true (c :: t)
        = some (⟨c :: t.takeWhile isKeyChar, []⟩, h0 :: tl) := by
      have hdw : (c :: t).dropWhile isWS = c :: t :=
        List.dropWhile_cons_of_neg (by simp [hnws])
      simp only [matchAttr, hdw, h3, Bool.false_eq_true, if_false]
      rw [if_pos h1, hdrop]
      simp only [matchValue]
      rw [if_neg h0ne]
      simp only [if_true]
      rw [List.dropWhile_cons_of_neg (by simp [h0ws])]
    have hmatch2 : matchAttr true (h0 :: tl) = none := by
      have hdw2 : (h0 :: tl).dropWhile isWS = h0 :: tl :=
        List.dropWhile_cons_of_neg (by simp [h0ws])
      have hx2 : startsWithXml (h0 :: tl) = false := by
        by_contra hx
        rw [Bool.not_eq_false] at hx
        have := startsWithXml_head hx
        rw [this] at hh
        cases hh
      have hks : isKeyStart h0 = false := by
        by_contra hs
        rw [Bool.not_eq_false] at hs
        rw [keyStart_keyChar h0 hs] at hh
        cases hh
      simp only [matchAttr, hdw2, hx2, Bool.false_eq_true, if_false]
      simp [hks]
    show parseLoopFuel true ((c :: t).length + 1) (c :: t) = _
    rw [parseLoopFuel, hmatch1]
    simp only [List.length_cons]
    rw [parseLoopFuel, hmatch2]
    rfl

/-- Witness for C6 (amended) at the input `foo#bar`: a key-only attribute
`foo` plus `rest = "#bar"`. -/
theorem C6_witness :
    parseHandler "foo#bar".toList
      = ⟨[⟨keyPre "foo#bar".toList, []⟩], some (keyRem "foo#bar".toList)⟩ :=
  (C6_amended "foo#bar".toList (by decide)).2.2.2 (by decide) (by decide)

end MarkdownMuncher
